import Mathlib

/-!
A shallow embedding of `main.go` of sqlobjectexport.

Go strings are modelled by Lean strings, one Lean character standing for one
unit of the Go string.  Every separator the program searches for or compares
with (`:`, `@`, `/`, `,`, `.`) is ASCII, and an ASCII byte never occurs inside
a multi-byte UTF-8 sequence, so searching and slicing at these separators picks
the same substrings whether positions are counted in bytes or in characters,
and the order of two positions is the same in both countings.

The external world (database answers, outcomes of the `git` child processes)
is passed in as explicit arguments; what the program does to the world
(standard error, files written, commands issued) is returned as data.
-/

namespace SqlObjectExport

/-! ## Ways a Go program stops early -/

/-- How a run ends before reaching the end of `main`. -/
inductive Halt where
  /-- The call `os.Exit(code)`. -/
  | exit (code : Int)
  /-- A run-time panic (slice bounds out of range, nil pointer dereference). -/
  | panic (msg : String)
  deriving DecidableEq, Repr

/-! ## The pieces of the Go standard library that `main.go` calls -/

/-- Go `strings.Count(s, sep)` for a one-character `sep`. -/
def stringsCount (s : String) (sep : Char) : Nat :=
  s.data.count sep

/-- Go `strings.Index(s, sep)` for a one-character `sep`: the position of the
first occurrence, `-1` when there is none. -/
def stringsIndex (s : String) (sep : Char) : Int :=
  if sep ∈ s.data then (s.data.indexOf sep : Nat) else -1

/-- Go `strings.LastIndex(s, sep)` for a one-character `sep`: the position of
the last occurrence, `-1` when there is none. -/
def stringsLastIndex (s : String) (sep : Char) : Int :=
  if sep ∈ s.data then ((s.data.length - 1 - s.data.reverse.indexOf sep : Nat) : Int) else -1

/-- Go `len(s)`. -/
def goLen (s : String) : Int :=
  (s.data.length : Nat)

/-- The bounds check of a Go slice expression `s[lo:hi]`: it panics unless
`0 ≤ lo ≤ hi ≤ len(s)`. -/
def sliceInBounds (s : String) (lo hi : Int) : Bool :=
  decide (0 ≤ lo) && decide (lo ≤ hi) && decide (hi ≤ goLen s)

/-- Go slice expression `s[lo:hi]`. -/
def goSlice (s : String) (lo hi : Int) : Except Halt String :=
  if sliceInBounds s lo hi then
    .ok ⟨(s.data.drop lo.toNat).take (hi.toNat - lo.toNat)⟩
  else
    .error (.panic "slice bounds out of range")

/-- Go `strings.Join(elems, sep)`. -/
def stringsJoin : List String → String → String
  | [], _ => ""
  | [a], _ => a
  | a :: b :: rest, sep => a ++ sep ++ stringsJoin (b :: rest) sep

/-- Go `strings.Replace(s, old, new, n)` for a one-character `old` and `n ≥ 0`:
the first `n` occurrences of `old` are replaced by `new`. -/
def replaceChars (old : Char) (new : List Char) : List Char → Nat → List Char
  | [], _ => []
  | cs, 0 => cs
  | c :: cs, n + 1 =>
    if c = old then new ++ replaceChars old new cs n
    else c :: replaceChars old new cs (n + 1)

/-- Go `strings.Replace(s, old, new, n)` for a one-character `old`, `n ≥ 0`. -/
def stringsReplace (s : String) (old : Char) (new : String) (n : Nat) : String :=
  ⟨replaceChars old new.data s.data n⟩

/-- Go `unicode.IsSpace`: the code points with the Unicode White_Space property. -/
def unicodeIsSpace (c : Char) : Bool :=
  let n := c.toNat
  n == 0x09 || n == 0x0A || n == 0x0B || n == 0x0C || n == 0x0D || n == 0x20 ||
  n == 0x85 || n == 0xA0 || n == 0x1680 || (0x2000 ≤ n && n ≤ 0x200A) ||
  n == 0x2028 || n == 0x2029 || n == 0x202F || n == 0x205F || n == 0x3000

/-- Go `strings.TrimSpace(s)`: leading and trailing white space removed. -/
def stringsTrimSpace (s : String) : String :=
  ⟨((s.data.dropWhile unicodeIsSpace).reverse.dropWhile unicodeIsSpace).reverse⟩

/-! ## Configuration and the connection descriptor (`main.go` 17-28, 67-78, 149-159) -/

/-- The `config` struct. -/
structure Config where
  Directory : String
  DbAddress : String
  DbPort : String
  DbUsername : String
  DbPassword : String
  DbDatabase : String
  DbSchema : String
  DbjectType : String
  Git : Bool
  GitAddress : String
  deriving DecidableEq, Repr

/-- The function `isValidConnectionString`. -/
def isValidConnectionString (connectionDetails : String) : Bool :=
  if stringsCount connectionDetails ':' < 2 then false
  else if stringsCount connectionDetails '@' < 1 then false
  else if stringsCount connectionDetails '/' < 1 then false
  else true

/-- Lines 149-159 of `main`: the descriptor is validated (usage and
`os.Exit(-1)` when rejected) and then cut into five fields by five slice
expressions, evaluated in the order of the source. -/
def splitConnectionString (cfg : Config) (connectionDetails : String) : Except Halt Config := do
  if !isValidConnectionString connectionDetails then
    throw (.exit (-1))
  let username ← goSlice connectionDetails 0 (stringsIndex connectionDetails ':')
  let password ← goSlice connectionDetails
    (stringsIndex connectionDetails ':' + 1) (stringsIndex connectionDetails '@')
  let address ← goSlice connectionDetails
    (stringsIndex connectionDetails '@' + 1) (stringsLastIndex connectionDetails ':')
  let port ← goSlice connectionDetails
    (stringsLastIndex connectionDetails ':' + 1) (stringsLastIndex connectionDetails '/')
  let database ← goSlice connectionDetails
    (stringsIndex connectionDetails '/' + 1) (goLen connectionDetails)
  return { cfg with
    DbUsername := username, DbPassword := password, DbAddress := address,
    DbPort := port, DbDatabase := database }

/-- The five pairs of slice bounds `main` computes for a descriptor, in source
order: username, password, address, port, database. -/
def connectionSliceBounds (cd : String) : List (Int × Int) :=
  [ (0, stringsIndex cd ':'),
    (stringsIndex cd ':' + 1, stringsIndex cd '@'),
    (stringsIndex cd '@' + 1, stringsLastIndex cd ':'),
    (stringsLastIndex cd ':' + 1, stringsLastIndex cd '/'),
    (stringsIndex cd '/' + 1, goLen cd) ]

/-! ## `fmt.Sprintf` verbs and `path/filepath` (Unix), as used by `main.go` -/

/-- Decimal digits of a natural number, most significant first; `fuel` bounds
the number of digits produced. -/
def decimalDigits : Nat → Nat → List Char
  | 0, _ => []
  | fuel + 1, n =>
    if n < 10 then [Nat.digitChar n]
    else decimalDigits fuel (n / 10) ++ [Nat.digitChar (n % 10)]

/-- The verb `%d` of `fmt.Sprintf` applied to a Go `int`: decimal, with a
leading `-` for a negative number. -/
def fmtInt : Int → String
  | .ofNat n => ⟨decimalDigits (n + 1) n⟩
  | .negSucc n => ⟨'-' :: decimalDigits (n + 2) (n + 1)⟩

/-- The inner loop of the `..` case of `filepath.Clean`:
`for out.w > dotdot && !os.IsPathSeparator(out.index(out.w)) { out.w-- }`.
The buffer prefix is held reversed; `cur` is the character at index `out.w`. -/
def backtrackLoop : List Char → Char → Nat → List Char
  | [], _, _ => []
  | c :: rest, cur, dotdot =>
    if dotdot < (c :: rest).length ∧ cur ≠ '/' then backtrackLoop rest c dotdot
    else c :: rest

/-- The `..` case of `filepath.Clean` when it can backtrack: `out.w--` followed
by the loop above; the last element written goes away with its separator. -/
def backtrack (out : List Char) (dotdot : Nat) : List Char :=
  match out.reverse with
  | [] => []
  | c :: rest => (backtrackLoop rest c dotdot).reverse

/-- The main loop of `filepath.Clean` (`for r < n { switch ... }`): `path` is
what is left to read, `out` what has been written, `dotdot` the index where
`..` must stop.  Each iteration reads at least one character, so a `fuel` of
the length of the path is never used up. -/
def cleanLoop (rooted : Bool) : Nat → List Char → List Char → Nat → List Char
  | 0, _, out, _ => out
  | _ + 1, [], out, _ => out
  | fuel + 1, c :: rest, out, dotdot =>
    if c = '/' then
      cleanLoop rooted fuel rest out dotdot
    else if c = '.' ∧ (rest = [] ∨ rest.head? = some '/') then
      cleanLoop rooted fuel rest out dotdot
    else if c = '.' ∧ rest.head? = some '.' ∧
        (rest.tail = [] ∨ rest.tail.head? = some '/') then
      if dotdot < out.length then
        cleanLoop rooted fuel rest.tail (backtrack out dotdot) dotdot
      else if !rooted then
        let out2 := (if 0 < out.length then out ++ ['/'] else out) ++ ['.', '.']
        cleanLoop rooted fuel rest.tail out2 out2.length
      else
        cleanLoop rooted fuel rest.tail out dotdot
    else
      let out1 :=
        if (rooted && out.length != 1) || (!rooted && out.length != 0) then out ++ ['/']
        else out
      cleanLoop rooted fuel ((c :: rest).dropWhile (fun x => x != '/'))
        (out1 ++ (c :: rest).takeWhile (fun x => x != '/')) dotdot

/-- Go `filepath.Clean` on Unix (no volume name, separator `/`). -/
def filepathClean (path : String) : String :=
  if path.data = [] then "."
  else
    let rooted := path.data.head? = some '/'
    let out :=
      if rooted then cleanLoop true path.data.length path.data.tail ['/'] 1
      else cleanLoop false path.data.length path.data [] 0
    if out = [] then "." else ⟨out⟩

/-- Go `filepath.Join` on Unix: leading empty elements are skipped, the rest
is joined with `/` and cleaned; the result is empty when every element is. -/
def filepathJoin : List String → String
  | [] => ""
  | e :: rest =>
    if e ≠ "" then filepathClean (stringsJoin (e :: rest) "/") else filepathJoin rest

/-! ## Objects and their definitions (`main.go` 30-65) -/

/-- The `Object` struct: one row of the catalog query. -/
structure Object where
  SchemaName : String
  ObjectId : Int
  ObjectName : String
  ObjectType : String
  ObjectTypeDesc : String
  ObjectDefinition : String
  RetrievedDefinition : Bool
  deriving DecidableEq, Repr

/-- The method `generateCommentBlock`; the format string is the raw string
literal of lines 47-55, each `%s` replaced by its argument. -/
def Object.generateCommentBlock (o : Object) : String :=
  let disclaimer :=
    if stringsTrimSpace o.ObjectType = "U" then
      "NOTE: User table is generated as table variable for reference purposes only"
    else
      "NOTE: Object is exported with definition only"
  "/* \n\t" ++ o.ObjectTypeDesc ++ " Object Generated by sqlobjectdump\n\n\t" ++
    o.SchemaName ++ "." ++ o.ObjectName ++ "\n\n\t" ++ disclaimer ++ "\n*/\n\n"

/-- The `ObjectDefinition` struct. -/
structure ObjectDefinition where
  Definition : List String
  deriving DecidableEq, Repr

/-- The method `ObjectDefinition.String`. -/
def ObjectDefinition.String (od : ObjectDefinition) : String :=
  stringsJoin od.Definition ""

/-! ## The outside world -/

/-- One iteration of `for rows.Next() { ... rows.Scan(&line) ... }`: the value
the variable `line` holds after the call of `Scan`, and the error `Scan`
returned. -/
structure ScanResult where
  line : String
  err : Option String
  deriving DecidableEq, Repr

/-- A non-nil `*sql.Rows`: the rows it yields and what `rows.Err()` returns
once the iteration is over. -/
structure Rows where
  scans : List ScanResult
  err : Option String
  deriving DecidableEq, Repr

/-- The pair `(rows, err)` returned by `mssqldb.Query`; `rows = none` is the
nil pointer.  `database/sql` returns a nil `*Rows` together with every non-nil
error. -/
structure QueryResult where
  rows : Option Rows
  err : Option String
  deriving DecidableEq, Repr

/-- The answers of the server to the two per-object queries. -/
structure Database where
  /-- The `INFORMATION_SCHEMA.COLUMNS` query of lines 203-207, by `@p1`. -/
  columns : String → QueryResult
  /-- The call `EXEC sp_helptext @p1` of line 231, by `@p1`. -/
  helptext : String → QueryResult

/-- What the program does to the outside world, in the order it does it. -/
inductive Event where
  /-- The call `fmt.Fprintf(os.Stderr, "%v", err)`. -/
  | stderr (msg : String)
  /-- The call `os.MkdirAll(path, os.ModePerm)`. -/
  | mkdirAll (path : String)
  /-- The call `ioutil.WriteFile(path, content, 0644)`. -/
  | writeFile (path : String) (content : String)
  /-- The call `cmd.Run()` of a command with `cmd.Dir = dir`. -/
  | run (dir : String) (args : List String)
  deriving DecidableEq, Repr

/-- The statement `if err != nil { fmt.Fprintf(os.Stderr, "%v", err) }`. -/
def reportErr (err : Option String) : List Event :=
  match err with
  | some e => [.stderr e]
  | none => []

/-! ## The git helpers (`main.go` 80-120) -/

/-- The outcome of running a child process: the error of `cmd.Run()` for a
command with the given working directory and arguments (`none` is `nil`). -/
abbrev Shell := String → List String → Option String

/-- The function `gitInitDirectory`: the error it returns and what it did. -/
def gitInitDirectory (exec : Shell) (gitAddress filepath : String) :
    Option String × List Event :=
  let args1 := ["git", "clone", gitAddress, "./"]
  let err1 := exec filepath args1
  let ev1 := [Event.run filepath args1] ++ reportErr err1
  let args2 := ["git", "pull"]
  let err2 := exec filepath args2
  let ev2 := [Event.run filepath args2] ++ reportErr err2
  (err2, ev1 ++ ev2)

/-- The function `gitCommitDirectory`: the error it returns and what it did. -/
def gitCommitDirectory (exec : Shell) (filepath : String) : Option String × List Event :=
  let args1 := ["git", "add", "."]
  match exec filepath args1 with
  | some err => (some err, [Event.run filepath args1])
  | none =>
    let args2 := ["git", "commit", "-m", "sqlobjectexport updated SQL objects"]
    match exec filepath args2 with
    | some err => (some err, [Event.run filepath args1, Event.run filepath args2])
    | none =>
      let args3 := ["git", "push"]
      match exec filepath args3 with
      | some err =>
        (some err, [Event.run filepath args1, Event.run filepath args2, Event.run filepath args3])
      | none =>
        (none, [Event.run filepath args1, Event.run filepath args2, Event.run filepath args3])

/-! ## Reconstruction of the definitions (`main.go` 200-251) -/

/-- The message of the panic raised by a method of a nil `*sql.Rows`. -/
def nilDereference : String :=
  "invalid memory address or nil pointer dereference"

/-- The loop `for rows.Next() { ... }` of lines 214-222 over the rows of a
non-nil handle: each row appends `"\t" + line + ",\n"` to the definition, and
the error of `Scan`, if any, is reported. -/
def scanColumns : List ScanResult → List String → List String × List Event
  | [], defn => (defn, [])
  | r :: rs, defn =>
    let (defn', ev) := scanColumns rs (defn ++ ["\t" ++ r.line ++ ",\n"])
    (defn', reportErr r.err ++ ev)

/-- The loop `for rows.Next() { ... }` of lines 237-244: each row appends its
line as it is. -/
def scanLines : List ScanResult → List String → List String × List Event
  | [], defn => (defn, [])
  | r :: rs, defn =>
    let (defn', ev) := scanLines rs (defn ++ [r.line])
    (defn', reportErr r.err ++ ev)

/-- The assignment `xs[len(xs)-1] = f(xs[len(xs)-1])`; indexing an empty slice
at `-1` panics. -/
def updateLast (f : String → String) (xs : List String) : Except Halt (List String) :=
  match xs.reverse with
  | [] => .error (.panic "index out of range [-1]")
  | x :: rest => .ok (rest.reverse ++ [f x])

/-- The table branch of the loop body (lines 203-229), given what `Query`
returned: the declaration assembled in the local `objects`, or the panic that
stopped the program, with the events up to there. -/
def tableDeclaration (o : Object) (q : QueryResult) :
    Except Halt ObjectDefinition × List Event :=
  let ev0 := reportErr q.err
  match q.rows with
  | none => (.error (.panic nilDereference), ev0)
  | some rows =>
    let (defn1, ev1) := scanColumns rows.scans ["DECLARE @" ++ o.ObjectName ++ " TABLE (\n"]
    match updateLast (fun last => stringsReplace last ',' "" 1) defn1 with
    | .error h => (.error h, ev0 ++ ev1)
    | .ok defn2 => (.ok ⟨defn2 ++ [");"]⟩, ev0 ++ ev1 ++ reportErr rows.err)

/-- The other branch of the loop body (lines 231-249), given what `Query`
returned. -/
def storedDefinition (q : QueryResult) : Except Halt ObjectDefinition × List Event :=
  let ev0 := reportErr q.err
  match q.rows with
  | none => (.error (.panic nilDereference), ev0)
  | some rows =>
    let (defn1, ev1) := scanLines rows.scans []
    (.ok ⟨defn1⟩, ev0 ++ ev1 ++ reportErr rows.err)

/-- The body of the loop of lines 200-251 for one object: the object with its
definition stored, or the panic that stopped the program. -/
def reconstructObject (db : Database) (o : Object) : Except Halt Object × List Event :=
  let built :=
    if stringsTrimSpace o.ObjectType = "U" then
      tableDeclaration o (db.columns o.ObjectName)
    else
      storedDefinition (db.helptext (o.SchemaName ++ "." ++ o.ObjectName))
  match built with
  | (.error h, ev) => (.error h, ev)
  | (.ok objects, ev) =>
    (.ok { o with ObjectDefinition := o.generateCommentBlock ++ objects.String }, ev)

/-- The loop of lines 200-251 over the discovered objects. -/
def reconstructAll (db : Database) : List Object → Except Halt (List Object) × List Event
  | [] => (.ok [], [])
  | o :: os =>
    match reconstructObject db o with
    | (.error h, ev) => (.error h, ev)
    | (.ok o', ev) =>
      match reconstructAll db os with
      | (.error h, ev') => (.error h, ev ++ ev')
      | (.ok os', ev') => (.ok (o' :: os'), ev ++ ev')

/-! ## Writing the files (`main.go` 263-270) -/

/-- The file name `fmt.Sprintf("%s_%s.%s_%d.sql", ...)` of line 267. -/
def objectFileName (o : Object) : String :=
  o.SchemaName ++ "_" ++ o.ObjectName ++ "." ++ o.ObjectType ++ "_" ++ fmtInt o.ObjectId ++ ".sql"

/-- The directory `newpath` of line 264. -/
def objectDirectory (cfg : Config) (o : Object) : String :=
  filepathJoin [cfg.Directory, cfg.DbAddress, cfg.DbDatabase, o.SchemaName, o.ObjectTypeDesc]

/-- The path `objfilepath` of line 267. -/
def objectFilePath (cfg : Config) (o : Object) : String :=
  filepathJoin [cfg.Directory, cfg.DbAddress, cfg.DbDatabase, o.SchemaName, o.ObjectTypeDesc,
    objectFileName o]

/-- The loop of lines 263-270; the errors of `MkdirAll` and `WriteFile` are
dropped by the source. -/
def writeObjects (cfg : Config) : List Object → List Event
  | [] => []
  | o :: os =>
    Event.mkdirAll (objectDirectory cfg o) ::
      Event.writeFile (objectFilePath cfg o) o.ObjectDefinition :: writeObjects cfg os

/-! ## The program (`main.go` 122-279) -/

/-- The usage line printed by `flag.Usage`. -/
def usage : String :=
  "Usage: sqlobjectdump [--git] [--git-address] [--directory] [--schema=<schema>] [--type=<type>] <username>:<password>@<address>:<port>/<database>\n"

/-- Lines 200-278 of `main`: reconstruction, the optional clone and pull, the
writing of the files, the optional commit. -/
def exportObjects (cfg : Config) (db : Database) (exec : Shell) (objects : List Object) :
    Except Halt Unit × List Event :=
  match reconstructAll db objects with
  | (.error h, ev) => (.error h, ev)
  | (.ok objs, ev) =>
    let evInit :=
      if cfg.Git then
        let (err, evGit) := gitInitDirectory exec cfg.GitAddress cfg.Directory
        [Event.mkdirAll (filepathJoin [cfg.Directory])] ++ evGit ++ reportErr err
      else []
    let evCommit :=
      if cfg.Git then
        let (err, evGit) := gitCommitDirectory exec cfg.Directory
        evGit ++ reportErr err
      else []
    (.ok (), ev ++ evInit ++ writeObjects cfg objs ++ evCommit)

/-- The function `main` after `flag.Parse()`: `cfg` holds the flags, `args`
the positional arguments, `catalog` the outcome of opening the connection and
reading the catalog (an error there ends the run through `log.Fatal`, exit
status 1).  The lines written through the `log` package are not recorded. -/
def main (cfg : Config) (args : List String) (catalog : Except String (List Object))
    (db : Database) (exec : Shell) : Except Halt Unit × List Event :=
  match args with
  | [connectionDetails] =>
    if cfg.Directory = "" then (.error (.exit (-1)), [.stderr usage])
    else
      match splitConnectionString cfg connectionDetails with
      | .error (.exit code) => (.error (.exit code), [.stderr usage])
      | .error h => (.error h, [])
      | .ok cfg' =>
        match catalog with
        | .error _ => (.error (.exit 1), [])
        | .ok objects => exportObjects cfg' db exec objects
  | _ => (.error (.exit (-1)), [.stderr usage])

/-! ## Connection descriptors built from their fields -/

/-- A string free of the three separators of a connection descriptor. -/
def noSeparator (s : String) : Prop :=
  ':' ∉ s.data ∧ '@' ∉ s.data ∧ '/' ∉ s.data

instance (s : String) : Decidable (noSeparator s) :=
  inferInstanceAs (Decidable (':' ∉ s.data ∧ '@' ∉ s.data ∧ '/' ∉ s.data))

/-- The connection descriptor written from its five fields. -/
def connectionDescriptor (username password host port database : String) : String :=
  username ++ ":" ++ password ++ "@" ++ host ++ ":" ++ port ++ "/" ++ database

/-! ## Reading a trace, and the vocabulary of the statements -/

/-- The child processes of a trace, in the order they were run. -/
def commandsRun : List Event → List (String × List String)
  | [] => []
  | .run dir args :: ev => (dir, args) :: commandsRun ev
  | _ :: ev => commandsRun ev

/-- The files of a trace, in the order they were written. -/
def filesWritten : List Event → List (String × String)
  | [] => []
  | .writeFile path content :: ev => (path, content) :: filesWritten ev
  | _ :: ev => filesWritten ev

/-- The query whose answer decides the definition of an object: the column
query for a table, the call of `sp_helptext` for any other kind. -/
def definitionQuery (db : Database) (o : Object) : QueryResult :=
  if stringsTrimSpace o.ObjectType = "U" then db.columns o.ObjectName
  else db.helptext (o.SchemaName ++ "." ++ o.ObjectName)

/-- The header as the specification words it: kind label, qualified name, and
the disclaimer chosen by the trimmed kind. -/
def specHeader (o : Object) : String :=
  "/* \n\t" ++ o.ObjectTypeDesc ++ " Object Generated by sqlobjectdump\n\n\t" ++
    o.SchemaName ++ "." ++ o.ObjectName ++ "\n\n\t" ++
    (if stringsTrimSpace o.ObjectType = "U" then
      "NOTE: User table is generated as table variable for reference purposes only"
    else
      "NOTE: Object is exported with definition only") ++ "\n*/\n\n"

/-- A path segment that `filepath.Clean` leaves alone: not empty, without a
separator, and neither `.` nor `..`. -/
def PlainName (s : String) : Prop :=
  s.data ≠ [] ∧ '/' ∉ s.data ∧ s.data ≠ ['.'] ∧ s.data ≠ ['.', '.']

instance (s : String) : Decidable (PlainName s) :=
  inferInstanceAs (Decidable (s.data ≠ [] ∧ '/' ∉ s.data ∧ s.data ≠ ['.'] ∧ s.data ≠ ['.', '.']))

/-- A stretch of a path that stops right behind a separator, or is empty: what
stands before the start of a path element. -/
def EndsSlash (m : List Char) : Prop :=
  m = [] ∨ ∃ m0, m = m0 ++ ['/']

/-- The value of a string of decimal digits. -/
def digitsValue (ds : List Char) : Nat :=
  ds.foldl (fun acc d => 10 * acc + (d.toNat - 48)) 0

/-! ## Sample data -/

/-- A configuration with only the target directory set. -/
def cfg0 : Config :=
  { Directory := "out", DbAddress := "", DbPort := "", DbUsername := "", DbPassword := "",
    DbDatabase := "", DbSchema := "", DbjectType := "", Git := false, GitAddress := "" }

/-- A shell in which every command succeeds. -/
def allSucceed : Shell :=
  fun _ _ => none

/-- A database that answers every query with an empty result set. -/
def emptyDatabase : Database :=
  { columns := fun _ => ⟨some ⟨[], none⟩, none⟩,
    helptext := fun _ => ⟨some ⟨[], none⟩, none⟩ }

/-- The table of the example scenario, with kind `U`. -/
def customer : Object :=
  { SchemaName := "dbo", ObjectId := 101, ObjectName := "Customer", ObjectType := "U",
    ObjectTypeDesc := "USER_TABLE", ObjectDefinition := "", RetrievedDefinition := false }

/-- The two column lines of the example scenario. -/
def customerColumns : List ScanResult :=
  [⟨"[Id] [int] NOT NULL", none⟩, ⟨"[Name] [varchar](50) NULL", none⟩]

/-- A view. -/
def activeCustomers : Object :=
  { SchemaName := "dbo", ObjectId := 202, ObjectName := "ActiveCustomers", ObjectType := "V ",
    ObjectTypeDesc := "VIEW", ObjectDefinition := "", RetrievedDefinition := false }

/-- A server that knows the columns of every table and fails every call of
`sp_helptext`: `Query` returns a nil handle and an error. -/
def helptextFails : Database :=
  { columns := fun _ => ⟨some ⟨customerColumns, none⟩, none⟩,
    helptext := fun _ => ⟨none, some "mssql: There is no text for object"⟩ }

/-- A server that answers the column query with the two example lines and
`sp_helptext` with two lines of a view. -/
def sampleDatabase : Database :=
  { columns := fun _ => ⟨some ⟨customerColumns, none⟩, none⟩,
    helptext := fun _ =>
      ⟨some ⟨[⟨"CREATE VIEW dbo.ActiveCustomers AS\n", none⟩,
              ⟨"SELECT Id, Name FROM dbo.Customer\n", none⟩], none⟩, none⟩ }

/-- A table whose only column is named `a,b`. -/
def commaTable : Object :=
  { SchemaName := "dbo", ObjectId := 303, ObjectName := "T", ObjectType := "U ",
    ObjectTypeDesc := "USER_TABLE", ObjectDefinition := "", RetrievedDefinition := false }

/-- A configuration after the descriptor `sa:pw@db1:1433/Sales` was split. -/
def cfg1 : Config :=
  { cfg0 with DbUsername := "sa", DbPassword := "pw", DbAddress := "db1", DbPort := "1433",
              DbDatabase := "Sales" }

/-- A table named `Report`, kind `U` padded to the two characters of the catalog. -/
def reportTable : Object :=
  { SchemaName := "dbo", ObjectId := 404, ObjectName := "Report", ObjectType := "U ",
    ObjectTypeDesc := "USER_TABLE", ObjectDefinition := "", RetrievedDefinition := false }

/-- A view with the schema, the name and the identifier of `reportTable`. -/
def reportView : Object :=
  { SchemaName := "dbo", ObjectId := 404, ObjectName := "Report", ObjectType := "V ",
    ObjectTypeDesc := "VIEW", ObjectDefinition := "", RetrievedDefinition := false }

/-! # Theorems -/

/-! ## Searching and slicing -/

theorem stringsIndex_mk_append (a b : List Char) (c : Char) (h : c ∉ a) :
    stringsIndex ⟨a ++ c :: b⟩ c = (a.length : Nat) := by
  unfold stringsIndex
  have hm : c ∈ a ++ c :: b := by simp
  simp only [hm, if_true]
  rw [List.indexOf_append_of_not_mem h, List.indexOf_cons_self]
  simp

theorem stringsLastIndex_mk_append (a b : List Char) (c : Char) (h : c ∉ b) :
    stringsLastIndex ⟨a ++ c :: b⟩ c = (a.length : Nat) := by
  unfold stringsLastIndex
  have hm : c ∈ a ++ c :: b := by simp
  have hr : (a ++ c :: b).reverse = b.reverse ++ c :: a.reverse := by simp
  have hb : c ∉ b.reverse := by simpa using h
  simp only [hm, if_true]
  rw [hr, List.indexOf_append_of_not_mem hb, List.indexOf_cons_self]
  simp only [List.length_append, List.length_cons, List.length_reverse]
  congr 1
  omega

theorem goSlice_mk_middle (a m b : List Char) (lo hi : Int)
    (hlo : lo = (a.length : Nat)) (hhi : hi = ((a.length + m.length : Nat) : Int)) :
    goSlice ⟨a ++ (m ++ b)⟩ lo hi = .ok ⟨m⟩ := by
  subst hlo hhi
  have hb : sliceInBounds ⟨a ++ (m ++ b)⟩ (a.length : Nat) ((a.length + m.length : Nat) : Int)
      = true := by
    simp only [sliceInBounds, goLen, List.length_append, Bool.and_eq_true, decide_eq_true_eq]
    omega
  simp only [goSlice, hb, if_true, Int.toNat_ofNat]
  congr 2
  simp

theorem connectionDescriptor_data (u p h port db : List Char) :
    connectionDescriptor ⟨u⟩ ⟨p⟩ ⟨h⟩ ⟨port⟩ ⟨db⟩ =
      ⟨u ++ ':' :: (p ++ '@' :: (h ++ ':' :: (port ++ '/' :: db)))⟩ := by
  apply String.ext
  simp [connectionDescriptor, String.data_append]

/-- C9. For fields free of `:`, `@` and `/`, the descriptor
`username:password@host:port/database` is accepted by
`isValidConnectionString` and the five slices of `main` recover the five
fields. -/
theorem connection_descriptor_round_trip (cfg : Config)
    (username password host port database : String)
    (hu : noSeparator username) (hp : noSeparator password) (hh : noSeparator host)
    (hport : noSeparator port) (hd : noSeparator database) :
    isValidConnectionString (connectionDescriptor username password host port database) = true ∧
    splitConnectionString cfg (connectionDescriptor username password host port database) =
      .ok { cfg with
        DbUsername := username, DbPassword := password, DbAddress := host,
        DbPort := port, DbDatabase := database } := by
  obtain ⟨u⟩ := username
  obtain ⟨p⟩ := password
  obtain ⟨h⟩ := host
  obtain ⟨q⟩ := port
  obtain ⟨d⟩ := database
  obtain ⟨hu1, hu2, hu3⟩ := hu
  obtain ⟨hp1, hp2, hp3⟩ := hp
  obtain ⟨hh1, hh2, hh3⟩ := hh
  obtain ⟨hq1, hq2, hq3⟩ := hport
  obtain ⟨hd1, hd2, hd3⟩ := hd
  simp only at hu1 hu2 hu3 hp1 hp2 hp3 hh1 hh2 hh3 hq1 hq2 hq3 hd1 hd2 hd3
  rw [connectionDescriptor_data]
  set D : List Char := u ++ ':' :: (p ++ '@' :: (h ++ ':' :: (q ++ '/' :: d))) with hD
  have hvalid : isValidConnectionString ⟨D⟩ = true := by
    simp [isValidConnectionString, stringsCount, hD, List.count_append, List.count_cons]
    omega
  have i1 : stringsIndex ⟨D⟩ ':' = (u.length : Nat) := stringsIndex_mk_append u _ ':' hu1
  have i2 : stringsIndex ⟨D⟩ '@' = ((u ++ ':' :: p).length : Nat) := by
    have e : D = (u ++ ':' :: p) ++ '@' :: (h ++ ':' :: (q ++ '/' :: d)) := by simp [hD]
    rw [e]
    exact stringsIndex_mk_append _ _ '@' (by simp [hu2, hp2])
  have i3 : stringsLastIndex ⟨D⟩ ':' = ((u ++ ':' :: (p ++ '@' :: h)).length : Nat) := by
    have e : D = (u ++ ':' :: (p ++ '@' :: h)) ++ ':' :: (q ++ '/' :: d) := by simp [hD]
    rw [e]
    exact stringsLastIndex_mk_append _ _ ':' (by simp [hq1, hd1])
  have i4 : stringsLastIndex ⟨D⟩ '/' =
      ((u ++ ':' :: (p ++ '@' :: (h ++ ':' :: q))).length : Nat) := by
    have e : D = (u ++ ':' :: (p ++ '@' :: (h ++ ':' :: q))) ++ '/' :: d := by simp [hD]
    rw [e]
    exact stringsLastIndex_mk_append _ _ '/' hd3
  have i5 : stringsIndex ⟨D⟩ '/' =
      ((u ++ ':' :: (p ++ '@' :: (h ++ ':' :: q))).length : Nat) := by
    have e : D = (u ++ ':' :: (p ++ '@' :: (h ++ ':' :: q))) ++ '/' :: d := by simp [hD]
    rw [e]
    exact stringsIndex_mk_append _ _ '/' (by simp [hu3, hp3, hh3, hq3])
  have s1 : goSlice ⟨D⟩ 0 (stringsIndex ⟨D⟩ ':') = .ok ⟨u⟩ := by
    have e : D = [] ++ (u ++ ':' :: (p ++ '@' :: (h ++ ':' :: (q ++ '/' :: d)))) := by simp [hD]
    rw [i1, e]
    exact goSlice_mk_middle [] u _ _ _ (by simp) (by simp)
  have s2 : goSlice ⟨D⟩ (stringsIndex ⟨D⟩ ':' + 1) (stringsIndex ⟨D⟩ '@') = .ok ⟨p⟩ := by
    have e : D = (u ++ [':']) ++ (p ++ '@' :: (h ++ ':' :: (q ++ '/' :: d))) := by simp [hD]
    rw [i1, i2, e]
    exact goSlice_mk_middle _ p _ _ _ (by simp; try omega) (by simp; try omega)
  have s3 : goSlice ⟨D⟩ (stringsIndex ⟨D⟩ '@' + 1) (stringsLastIndex ⟨D⟩ ':') = .ok ⟨h⟩ := by
    have e : D = (u ++ ':' :: (p ++ ['@'])) ++ (h ++ ':' :: (q ++ '/' :: d)) := by simp [hD]
    rw [i2, i3, e]
    exact goSlice_mk_middle _ h _ _ _ (by simp; try omega) (by simp; try omega)
  have s4 : goSlice ⟨D⟩ (stringsLastIndex ⟨D⟩ ':' + 1) (stringsLastIndex ⟨D⟩ '/') = .ok ⟨q⟩ := by
    have e : D = (u ++ ':' :: (p ++ '@' :: (h ++ [':']))) ++ (q ++ '/' :: d) := by simp [hD]
    rw [i3, i4, e]
    exact goSlice_mk_middle _ q _ _ _ (by simp; try omega) (by simp; try omega)
  have s5 : goSlice ⟨D⟩ (stringsIndex ⟨D⟩ '/' + 1) (goLen ⟨D⟩) = .ok ⟨d⟩ := by
    have e : D = (u ++ ':' :: (p ++ '@' :: (h ++ ':' :: (q ++ ['/'])))) ++ (d ++ []) := by
      simp [hD]
    rw [i5]
    simp only [goLen]
    rw [e]
    exact goSlice_mk_middle _ d _ _ _ (by simp; try omega) (by simp; try omega)
  refine ⟨hvalid, ?_⟩
  simp only [splitConnectionString, hvalid, s1, s2, s3, s4, s5]
  rfl

/-- C9 at the descriptor `sa:pw@db1:1433/Sales`. -/
theorem connection_descriptor_round_trip_witness :
    noSeparator "sa" ∧ noSeparator "pw" ∧ noSeparator "db1" ∧ noSeparator "1433" ∧
    noSeparator "Sales" ∧
    connectionDescriptor "sa" "pw" "db1" "1433" "Sales" = "sa:pw@db1:1433/Sales" ∧
    isValidConnectionString (connectionDescriptor "sa" "pw" "db1" "1433" "Sales") = true ∧
    splitConnectionString cfg0 (connectionDescriptor "sa" "pw" "db1" "1433" "Sales") =
      .ok { cfg0 with
        DbUsername := "sa", DbPassword := "pw", DbAddress := "db1",
        DbPort := "1433", DbDatabase := "Sales" } :=
  ⟨by decide, by decide, by decide, by decide, by decide, by decide,
    connection_descriptor_round_trip cfg0 "sa" "pw" "db1" "1433" "Sales"
      (by decide) (by decide) (by decide) (by decide) (by decide)⟩

/-- C10 fails on the code. The descriptor `a@b:c:d/e` is accepted by
`isValidConnectionString` (two `:`, one `@`, one `/`), yet the bounds of the
password slice are 4 and 1: the slice expression panics, and so does
`main`. -/
theorem accepted_descriptor_split_panics :
    isValidConnectionString "a@b:c:d/e" = true ∧
    connectionSliceBounds "a@b:c:d/e" = [(0, 3), (4, 1), (2, 5), (6, 7), (8, 9)] ∧
    sliceInBounds "a@b:c:d/e" 4 1 = false ∧
    splitConnectionString cfg0 "a@b:c:d/e" = .error (.panic "slice bounds out of range") ∧
    main cfg0 ["a@b:c:d/e"] (.ok []) emptyDatabase allSucceed =
      (.error (.panic "slice bounds out of range"), []) :=
  ⟨by decide, by decide, by decide, rfl, rfl⟩

/-- C7 fails as stated. When the clone succeeds, `gitInitDirectory` still runs
`git pull`: a pull is issued although the clone returned no error. -/
theorem gitInit_pulls_after_successful_clone :
    ¬ ((("out", ["git", "pull"]) ∈ commandsRun (gitInitDirectory allSucceed "origin" "out").2) ↔
        allSucceed "out" ["git", "clone", "origin", "./"] ≠ none) := by
  decide

/-- C7 as amended. For every outcome of the two commands, `gitInitDirectory`
runs `git clone` of the remote and then `git pull`, in that order and both
always; the error of the clone, when there is one, is printed to standard
error before the pull is run and is not returned; the error of the pull is
printed after the pull and is the error returned. -/
theorem gitInit_always_clones_then_pulls (exec : Shell) (gitAddress filepath : String) :
    (gitInitDirectory exec gitAddress filepath).2 =
      [Event.run filepath ["git", "clone", gitAddress, "./"]] ++
        (match exec filepath ["git", "clone", gitAddress, "./"] with
          | some e => [Event.stderr e]
          | none => []) ++
        [Event.run filepath ["git", "pull"]] ++
        (match exec filepath ["git", "pull"] with
          | some e => [Event.stderr e]
          | none => []) ∧
    commandsRun (gitInitDirectory exec gitAddress filepath).2 =
      [(filepath, ["git", "clone", gitAddress, "./"]), (filepath, ["git", "pull"])] ∧
    (gitInitDirectory exec gitAddress filepath).1 = exec filepath ["git", "pull"] := by
  refine ⟨?_, ?_, rfl⟩
  · simp only [gitInitDirectory]
    cases exec filepath ["git", "clone", gitAddress, "./"] <;>
      cases exec filepath ["git", "pull"] <;> rfl
  · simp only [gitInitDirectory]
    cases exec filepath ["git", "clone", gitAddress, "./"] <;>
      cases exec filepath ["git", "pull"] <;> rfl

/-- C8. `gitCommitDirectory` runs `git add`, `git commit`, `git push` in that
order and stops at the first failure: if add fails nothing else is run, if
commit fails push is not run, the error returned is that of the first failing
command, and the result is nil exactly when all three succeeded. -/
theorem gitCommit_stops_at_first_failure (exec : Shell) (filepath : String) :
    let add := (filepath, ["git", "add", "."])
    let commit := (filepath, ["git", "commit", "-m", "sqlobjectexport updated SQL objects"])
    let push := (filepath, ["git", "push"])
    let result := gitCommitDirectory exec filepath
    (exec add.1 add.2 ≠ none →
      commandsRun result.2 = [add] ∧ result.1 = exec add.1 add.2) ∧
    (exec add.1 add.2 = none → exec commit.1 commit.2 ≠ none →
      commandsRun result.2 = [add, commit] ∧ result.1 = exec commit.1 commit.2) ∧
    (exec add.1 add.2 = none → exec commit.1 commit.2 = none →
      commandsRun result.2 = [add, commit, push] ∧ result.1 = exec push.1 push.2) ∧
    (result.1 = none ↔
      exec add.1 add.2 = none ∧ exec commit.1 commit.2 = none ∧ exec push.1 push.2 = none) := by
  intro add commit push result
  simp only [result, add, commit, push, gitCommitDirectory]
  cases h1 : exec filepath ["git", "add", "."] with
  | some e1 => simp [commandsRun]
  | none =>
    cases h2 : exec filepath ["git", "commit", "-m", "sqlobjectexport updated SQL objects"] with
    | some e2 => simp [commandsRun]
    | none =>
      cases h3 : exec filepath ["git", "push"] with
      | some e3 => simp [commandsRun]
      | none => simp [commandsRun]

/-! ## Assembling the definitions -/

theorem replaceChars_first (old : Char) (new a b : List Char) (n : Nat) (h : old ∉ a) :
    replaceChars old new (a ++ old :: b) (n + 1) = a ++ new ++ replaceChars old new b n := by
  induction a with
  | nil => simp [replaceChars]
  | cons c a ih =>
    have hc : c ≠ old := fun e => h (by simp [e])
    have ha : old ∉ a := fun e => h (by simp [e])
    simp [replaceChars, hc, ih ha]

theorem replaceChars_zero (old : Char) (new b : List Char) :
    replaceChars old new b 0 = b := by
  cases b <;> simp [replaceChars]

theorem stringsReplace_column (line : String) (h : ',' ∉ line.data) :
    stringsReplace ("\t" ++ line ++ ",\n") ',' "" 1 = "\t" ++ line ++ "\n" := by
  apply String.ext
  have e : ("\t" ++ line ++ ",\n").data = ('\t' :: line.data) ++ ',' :: ['\n'] := by
    simp [String.data_append]
  have h2 : ',' ∉ '\t' :: line.data := by
    simp only [List.mem_cons, not_or]
    exact ⟨by decide, h⟩
  simp only [stringsReplace, e]
  rw [replaceChars_first _ _ _ _ 0 h2, replaceChars_zero]
  simp [String.data_append]

theorem scanColumns_fst (scans : List ScanResult) (defn : List String) :
    (scanColumns scans defn).1 = defn ++ scans.map (fun r => "\t" ++ r.line ++ ",\n") := by
  induction scans generalizing defn with
  | nil => simp [scanColumns]
  | cons r rs ih => simp [scanColumns, ih]

theorem scanLines_fst (scans : List ScanResult) (defn : List String) :
    (scanLines scans defn).1 = defn ++ scans.map (fun r => r.line) := by
  induction scans generalizing defn with
  | nil => simp [scanLines]
  | cons r rs ih => simp [scanLines, ih]

theorem updateLast_concat (f : String → String) (xs : List String) (x : String) :
    updateLast f (xs ++ [x]) = .ok (xs ++ [f x]) := by
  simp [updateLast]

theorem stringsJoin_cons_empty (x : String) (xs : List String) :
    stringsJoin (x :: xs) "" = x ++ stringsJoin xs "" := by
  cases xs with
  | nil => simp [stringsJoin]
  | cons y ys => simp [stringsJoin, String.append_assoc]

theorem stringsJoin_append_empty (xs ys : List String) :
    stringsJoin (xs ++ ys) "" = stringsJoin xs "" ++ stringsJoin ys "" := by
  induction xs with
  | nil => simp [stringsJoin]
  | cons x xs ih =>
    rw [List.cons_append, stringsJoin_cons_empty, stringsJoin_cons_empty, ih,
      String.append_assoc]

theorem stringsJoin_separated (sep : String) (f : ScanResult → String)
    (init : List ScanResult) (last : ScanResult) :
    stringsJoin ((init ++ [last]).map f) sep =
      stringsJoin (init.map (fun r => f r ++ sep)) "" ++ f last := by
  induction init with
  | nil => simp [stringsJoin]
  | cons r rs ih =>
    have e : ((r :: rs) ++ [last]).map f = f r :: ((rs ++ [last]).map f) := by simp
    rw [e]
    cases hrs : (rs ++ [last]).map f with
    | nil => simp at hrs
    | cons y ys =>
      rw [stringsJoin, ← hrs, ih, List.map_cons, stringsJoin_cons_empty]
      simp [String.append_assoc]

theorem tableDeclaration_of_rows (o : Object) (init : List ScanResult) (last : ScanResult)
    (rowsErr queryErr : Option String) :
    (tableDeclaration o ⟨some ⟨init ++ [last], rowsErr⟩, queryErr⟩).1 =
      .ok ⟨("DECLARE @" ++ o.ObjectName ++ " TABLE (\n") ::
        init.map (fun r => "\t" ++ r.line ++ ",\n") ++
        [stringsReplace ("\t" ++ last.line ++ ",\n") ',' "" 1] ++ [");"]⟩ := by
  have h1 : (scanColumns (init ++ [last]) ["DECLARE @" ++ o.ObjectName ++ " TABLE (\n"]).1 =
      (("DECLARE @" ++ o.ObjectName ++ " TABLE (\n") ::
        init.map (fun r => "\t" ++ r.line ++ ",\n")) ++ ["\t" ++ last.line ++ ",\n"] := by
    rw [scanColumns_fst]; simp
  simp only [tableDeclaration]
  rw [h1, updateLast_concat]

/-- C1. For every table name and every non-empty list of column lines, none
holding a comma, the table branch of `main` succeeds and the text it assembles
is `DECLARE @name TABLE (`, a line break, the lines each behind a tab and
separated by a comma and a line break, in the order returned, then a line
break and `);`. -/
theorem table_declaration_lists_columns_in_order (o : Object) (scans : List ScanResult)
    (rowsErr queryErr : Option String)
    (hne : scans ≠ []) (hcomma : ∀ r ∈ scans, ',' ∉ r.line.data) :
    ∃ objects : ObjectDefinition,
      (tableDeclaration o ⟨some ⟨scans, rowsErr⟩, queryErr⟩).1 = .ok objects ∧
      objects.String =
        "DECLARE @" ++ o.ObjectName ++ " TABLE (\n" ++
          stringsJoin (scans.map (fun r => "\t" ++ r.line)) ",\n" ++ "\n);" := by
  rcases List.eq_nil_or_concat scans with h | ⟨init, last, h⟩
  · exact absurd h hne
  · rw [List.concat_eq_append] at h
    subst h
    refine ⟨_, tableDeclaration_of_rows o init last rowsErr queryErr, ?_⟩
    have hl : ',' ∉ last.line.data := hcomma last (by simp)
    rw [stringsReplace_column _ hl, stringsJoin_separated]
    simp only [ObjectDefinition.String, List.cons_append, stringsJoin_cons_empty,
      stringsJoin_append_empty, List.append_assoc]
    simp [stringsJoin, String.append_assoc]

/-- C1 at the example scenario: table `Customer` with the columns `Id` and
`Name`. -/
theorem table_declaration_lists_columns_in_order_witness :
    customerColumns ≠ [] ∧ (∀ r ∈ customerColumns, ',' ∉ r.line.data) ∧
    ∃ objects : ObjectDefinition,
      (tableDeclaration customer ⟨some ⟨customerColumns, none⟩, none⟩).1 = .ok objects ∧
      objects.String =
        "DECLARE @Customer TABLE (\n\t[Id] [int] NOT NULL,\n\t[Name] [varchar](50) NULL\n);" :=
  ⟨by decide, by decide,
    table_declaration_lists_columns_in_order customer customerColumns none none
      (by decide) (by decide)⟩

/-- C2 fails on the code. For a table whose last column line holds a comma
(a column named `a,b`), `strings.Replace(last, ",", "", 1)` removes the comma
inside the name and leaves the separator: the assembled declaration ends with
a comma, a line break and `);`, and the column is renamed `ab`. -/
theorem comma_in_last_column_keeps_trailing_comma :
    (tableDeclaration commaTable ⟨some ⟨[⟨"[a,b] [int] NOT NULL", none⟩], none⟩, none⟩).1 =
      .ok ⟨["DECLARE @T TABLE (\n", "\t[ab] [int] NOT NULL,\n", ");"]⟩ ∧
    ObjectDefinition.String ⟨["DECLARE @T TABLE (\n", "\t[ab] [int] NOT NULL,\n", ");"]⟩ =
      "DECLARE @T TABLE (\n\t[ab] [int] NOT NULL" ++ ",\n);" ∧
    (reconstructObject
        { columns := fun _ => ⟨some ⟨[⟨"[a,b] [int] NOT NULL", none⟩], none⟩, none⟩,
          helptext := fun _ => ⟨some ⟨[], none⟩, none⟩ } commaTable).1 =
      .ok { commaTable with
        ObjectDefinition :=
          commaTable.generateCommentBlock ++ "DECLARE @T TABLE (\n\t[ab] [int] NOT NULL,\n);" } :=
  ⟨rfl, by decide, rfl⟩

/-! ## Headers and files -/

theorem filesWritten_append (a b : List Event) :
    filesWritten (a ++ b) = filesWritten a ++ filesWritten b := by
  induction a with
  | nil => rfl
  | cons e a ih => cases e <;> simp [filesWritten, ih]

theorem filesWritten_reportErr (err : Option String) : filesWritten (reportErr err) = [] := by
  cases err <;> rfl

theorem filesWritten_scanColumns (scans : List ScanResult) (defn : List String) :
    filesWritten (scanColumns scans defn).2 = [] := by
  induction scans generalizing defn with
  | nil => rfl
  | cons r rs ih => simp [scanColumns, filesWritten_append, filesWritten_reportErr, ih]

theorem filesWritten_scanLines (scans : List ScanResult) (defn : List String) :
    filesWritten (scanLines scans defn).2 = [] := by
  induction scans generalizing defn with
  | nil => rfl
  | cons r rs ih => simp [scanLines, filesWritten_append, filesWritten_reportErr, ih]

theorem filesWritten_gitInit (exec : Shell) (a d : String) :
    filesWritten (gitInitDirectory exec a d).2 = [] := by
  simp [gitInitDirectory, filesWritten_append, filesWritten_reportErr, filesWritten]

theorem filesWritten_gitCommit (exec : Shell) (d : String) :
    filesWritten (gitCommitDirectory exec d).2 = [] := by
  simp only [gitCommitDirectory]
  cases exec d ["git", "add", "."] with
  | some e => rfl
  | none =>
    cases exec d ["git", "commit", "-m", "sqlobjectexport updated SQL objects"] with
    | some e => rfl
    | none => cases exec d ["git", "push"] <;> rfl

theorem filesWritten_writeObjects (cfg : Config) (objs : List Object) :
    filesWritten (writeObjects cfg objs) =
      objs.map (fun o => (objectFilePath cfg o, o.ObjectDefinition)) := by
  induction objs with
  | nil => rfl
  | cons o os ih => simp [writeObjects, filesWritten, ih]

theorem updateLast_of_ne_nil (f : String → String) (xs : List String) (h : xs ≠ []) :
    ∃ ys, updateLast f xs = .ok ys := by
  rcases List.eq_nil_or_concat xs with h0 | ⟨init, last, h0⟩
  · exact absurd h0 h
  · rw [List.concat_eq_append] at h0
    subst h0
    exact ⟨_, updateLast_concat f init last⟩

theorem reconstructObject_of_rows (db : Database) (o : Object) (rows : Rows)
    (h : (definitionQuery db o).rows = some rows) :
    ∃ body ev, reconstructObject db o =
        (.ok { o with ObjectDefinition := specHeader o ++ body }, ev) ∧
      filesWritten ev = [] := by
  unfold definitionQuery at h
  unfold reconstructObject
  by_cases hU : stringsTrimSpace o.ObjectType = "U"
  · simp only [hU, if_true] at h ⊢
    generalize db.columns o.ObjectName = q at h ⊢
    obtain ⟨qrows, qerr⟩ := q
    simp only at h
    subst h
    have hne : (scanColumns rows.scans ["DECLARE @" ++ o.ObjectName ++ " TABLE (\n"]).1 ≠ [] := by
      rw [scanColumns_fst]; simp
    obtain ⟨ys, hys⟩ := updateLast_of_ne_nil (fun last => stringsReplace last ',' "" 1) _ hne
    simp only [tableDeclaration, hys]
    refine ⟨_, _, rfl, ?_⟩
    simp [filesWritten_append, filesWritten_reportErr, filesWritten_scanColumns]
  · simp only [hU, if_false] at h ⊢
    generalize db.helptext (o.SchemaName ++ "." ++ o.ObjectName) = q at h ⊢
    obtain ⟨qrows, qerr⟩ := q
    simp only at h
    subst h
    simp only [storedDefinition]
    refine ⟨_, _, rfl, ?_⟩
    simp [filesWritten_append, filesWritten_reportErr, filesWritten_scanLines]

theorem reconstructAll_of_rows (db : Database) (objects : List Object)
    (h : ∀ o ∈ objects, (definitionQuery db o).rows ≠ none) :
    ∃ objs ev, reconstructAll db objects = (.ok objs, ev) ∧
      List.Forall₂ (fun o o' => ∃ body, o' = { o with ObjectDefinition := specHeader o ++ body })
        objects objs ∧
      filesWritten ev = [] := by
  induction objects with
  | nil => exact ⟨[], [], rfl, List.Forall₂.nil, rfl⟩
  | cons o os ih =>
    obtain ⟨objs, ev, h1, h2, h3⟩ := ih (fun x hx => h x (by simp [hx]))
    have ho := h o (by simp)
    obtain ⟨rows, hrows⟩ := Option.ne_none_iff_exists'.mp ho
    obtain ⟨body, ev0, hb, hf⟩ := reconstructObject_of_rows db o rows hrows
    refine ⟨_ :: objs, ev0 ++ ev, ?_, List.Forall₂.cons ⟨body, rfl⟩ h2, ?_⟩
    · simp only [reconstructAll, hb, h1]
    · simp [filesWritten_append, hf, h3]

/-- C3. When every definition query of a run returns a row handle, the loop
of `main` stores on every descriptor, table or not, a definition that begins
with the header of `generateCommentBlock` as the specification words it (kind
label, qualified name, and the table disclaimer exactly when the trimmed kind
is `U`), the run reaches its end, and the files it writes hold exactly these
definitions, one file per descriptor in the order of discovery. -/
theorem every_definition_begins_with_header (cfg : Config) (db : Database) (exec : Shell)
    (objects : List Object) (h : ∀ o ∈ objects, (definitionQuery db o).rows ≠ none) :
    ∃ objs ev, reconstructAll db objects = (.ok objs, ev) ∧
      List.Forall₂ (fun o o' => ∃ body, o' = { o with ObjectDefinition := specHeader o ++ body })
        objects objs ∧
      (exportObjects cfg db exec objects).1 = .ok () ∧
      filesWritten (exportObjects cfg db exec objects).2 =
        objs.map (fun o' => (objectFilePath cfg o', o'.ObjectDefinition)) := by
  obtain ⟨objs, ev, h1, h2, h3⟩ := reconstructAll_of_rows db objects h
  refine ⟨objs, ev, h1, h2, ?_, ?_⟩
  · simp only [exportObjects, h1]
  · simp only [exportObjects, h1]
    by_cases hg : cfg.Git
    · simp [hg, filesWritten_append, h3, filesWritten_gitInit, filesWritten_gitCommit,
        filesWritten_reportErr, filesWritten_writeObjects, filesWritten]
    · simp [hg, filesWritten_append, h3, filesWritten_writeObjects, filesWritten]

/-- C3 at a run over the table `Customer` and the view `ActiveCustomers`. -/
theorem every_definition_begins_with_header_witness :
    (∀ o ∈ [customer, activeCustomers], (definitionQuery sampleDatabase o).rows ≠ none) ∧
    ∃ objs ev, reconstructAll sampleDatabase [customer, activeCustomers] = (.ok objs, ev) ∧
      List.Forall₂ (fun o o' => ∃ body, o' = { o with ObjectDefinition := specHeader o ++ body })
        [customer, activeCustomers] objs ∧
      (exportObjects cfg0 sampleDatabase allSucceed [customer, activeCustomers]).1 = .ok () ∧
      filesWritten (exportObjects cfg0 sampleDatabase allSucceed [customer, activeCustomers]).2 =
        objs.map (fun o' => (objectFilePath cfg0 o', o'.ObjectDefinition)) :=
  ⟨by decide,
    every_definition_begins_with_header cfg0 sampleDatabase allSucceed
      [customer, activeCustomers] (by decide)⟩

/-- C4 fails on the code. When `Query` returns an error it returns a nil row
handle; `main` reports the error and then calls `rows.Next()` on the nil
handle, which panics. With a view whose `sp_helptext` call fails followed by
a table, the run ends in the panic after the report: the table is never
reconstructed and no file is written. The same happens when the column query
of a table fails. -/
theorem failed_definition_query_stops_the_run :
    definitionQuery helptextFails activeCustomers =
      ⟨none, some "mssql: There is no text for object"⟩ ∧
    exportObjects cfg0 helptextFails allSucceed [activeCustomers, customer] =
      (.error (.panic nilDereference), [.stderr "mssql: There is no text for object"]) ∧
    filesWritten (exportObjects cfg0 helptextFails allSucceed [activeCustomers, customer]).2 = [] ∧
    exportObjects cfg0
        { columns := fun _ => ⟨none, some "mssql: Invalid object name"⟩,
          helptext := fun _ => ⟨some ⟨[], none⟩, none⟩ }
        allSucceed [customer, activeCustomers] =
      (.error (.panic nilDereference), [.stderr "mssql: Invalid object name"]) :=
  ⟨rfl, rfl, rfl, rfl⟩

/-! ## Paths -/

theorem takeWhile_segment (s rest : List Char) (hs : '/' ∉ s)
    (hrest : rest = [] ∨ rest.head? = some '/') :
    (s ++ rest).takeWhile (fun x => x != '/') = s ∧
    (s ++ rest).dropWhile (fun x => x != '/') = rest := by
  induction s with
  | nil =>
    rcases hrest with h | h
    · subst h; simp
    · cases rest with
      | nil => simp
      | cons r rs =>
        simp only [List.head?_cons, Option.some.injEq] at h
        subst h
        simp [List.takeWhile, List.dropWhile]
  | cons c s ih =>
    have hc : c ≠ '/' := fun e => hs (by simp [e])
    have hs' : '/' ∉ s := fun e => hs (by simp [e])
    obtain ⟨h1, h2⟩ := ih hs'
    have hb : (c != '/') = true := by simp [hc]
    simp [List.takeWhile, List.dropWhile, hb, h1, h2]

theorem cleanLoop_segment_step (rooted : Bool) (fuel : Nat) (s : String)
    (rest out : List Char) (dotdot : Nat)
    (hs : PlainName s) (hrest : rest = [] ∨ rest.head? = some '/') :
    cleanLoop rooted (fuel + 1) (s.data ++ rest) out dotdot =
      cleanLoop rooted fuel rest
        ((if (rooted && out.length != 1) || (!rooted && out.length != 0) then out ++ ['/']
          else out) ++ s.data) dotdot := by
  obtain ⟨l⟩ := s
  obtain ⟨hne, hsl, hdot, hdd⟩ := hs
  simp only at hne hsl hdot hdd ⊢
  cases l with
  | nil => exact absurd rfl hne
  | cons c l =>
    have hc : c ≠ '/' := fun e => hsl (by simp [e])
    have hl : '/' ∉ l := fun e => hsl (by simp [e])
    obtain ⟨ht, hd⟩ := takeWhile_segment (c :: l) rest hsl hrest
    have h2 : ¬ (c = '.' ∧ (l ++ rest = [] ∨ (l ++ rest).head? = some '/')) := by
      rintro ⟨hc1, h⟩
      cases l with
      | nil => exact hdot (by simp [hc1])
      | cons d l =>
        rcases h with h | h
        · simp at h
        · simp only [List.cons_append, List.head?_cons, Option.some.injEq] at h
          exact hl (by simp [h])
    have h3 : ¬ (c = '.' ∧ (l ++ rest).head? = some '.' ∧
        ((l ++ rest).tail = [] ∨ (l ++ rest).tail.head? = some '/')) := by
      rintro ⟨hc1, hd1, h⟩
      cases l with
      | nil =>
        rcases hrest with hr | hr
        · subst hr; simp at hd1
        · simp only [List.nil_append] at hd1
          rw [hr] at hd1
          exact absurd hd1 (by decide)
      | cons d l =>
        simp only [List.cons_append, List.head?_cons, Option.some.injEq] at hd1
        cases l with
        | nil => exact hdd (by simp [hc1, hd1])
        | cons e l =>
          rcases h with h | h
          · simp at h
          · simp only [List.cons_append, List.tail_cons, List.head?_cons,
              Option.some.injEq] at h
            exact hl (by simp [h])
    rw [List.cons_append, cleanLoop]
    rw [if_neg hc, if_neg h2, if_neg h3]
    rw [← List.cons_append, ht, hd]

theorem cleanLoop_plain_step (fuel : Nat) (s : String) (rest out : List Char)
    (hs : PlainName s) (hrest : rest = [] ∨ rest.head? = some '/') :
    cleanLoop false (fuel + 1) (s.data ++ rest) out 0 =
      cleanLoop false fuel rest ((if out.length != 0 then out ++ ['/'] else out) ++ s.data) 0 := by
  have h := cleanLoop_segment_step false fuel s rest out 0 hs hrest
  simpa using h

theorem stringsJoin_cons_cons_data (a b : String) (rest : List String) (sep : String) :
    (stringsJoin (a :: b :: rest) sep).data =
      a.data ++ (sep.data ++ (stringsJoin (b :: rest) sep).data) := by
  simp [stringsJoin, String.data_append]

theorem stringsJoin_length (s : String) (segs : List String)
    (h : ∀ x ∈ s :: segs, PlainName x) :
    2 * segs.length + 1 ≤ (stringsJoin (s :: segs) "/").data.length := by
  induction segs generalizing s with
  | nil =>
    have := (h s (by simp)).1
    simp only [stringsJoin]
    cases hd : s.data with
    | nil => exact absurd hd this
    | cons c l => simp
  | cons t segs ih =>
    have h1 := ih t (fun x hx => h x (by simp at hx ⊢; tauto))
    have h0 := (h s (by simp)).1
    rw [stringsJoin_cons_cons_data]
    have : 0 < s.data.length := List.length_pos.mpr h0
    simp only [List.length_append, List.length_cons]
    have hsep : ("/" : String).data.length = 1 := rfl
    omega

theorem cleanLoop_plain_segments (segs : List String) :
    ∀ (s : String) (out : List Char) (fuel : Nat), (∀ x ∈ s :: segs, PlainName x) →
      2 * segs.length + 1 ≤ fuel →
      cleanLoop false fuel (stringsJoin (s :: segs) "/").data out 0 =
        (if out.length != 0 then out ++ ['/'] else out) ++ (stringsJoin (s :: segs) "/").data := by
  induction segs with
  | nil =>
    intro s out fuel h hf
    obtain ⟨f, rfl⟩ : ∃ f, fuel = f + 1 := ⟨fuel - 1, by omega⟩
    have hs := h s (by simp)
    have := cleanLoop_plain_step f s [] out hs (Or.inl rfl)
    simp only [List.append_nil] at this
    simp only [stringsJoin]
    rw [this]
    cases f <;> simp [cleanLoop]
  | cons t segs ih =>
    intro s out fuel h hf
    obtain ⟨f, rfl⟩ : ∃ f, fuel = f + 2 := ⟨fuel - 2, by simp at hf; omega⟩
    have hs := h s (by simp)
    have ht : ∀ x ∈ t :: segs, PlainName x := fun x hx => h x (by simp at hx ⊢; tauto)
    rw [stringsJoin_cons_cons_data]
    have hsep : ("/" : String).data = ['/'] := rfl
    rw [hsep]
    have step := cleanLoop_plain_step (f + 1) s
      (['/'] ++ (stringsJoin (t :: segs) "/").data) out hs (Or.inr rfl)
    rw [step]
    simp only [List.singleton_append]
    rw [cleanLoop]
    simp only [if_true]
    rw [ih t _ f ht (by simp at hf; omega)]
    have hlen : 0 < s.data.length := List.length_pos.mpr hs.1
    have hpos : (((if out.length != 0 then out ++ ['/'] else out) ++ s.data).length != 0)
        = true := by
      simp only [bne_iff_ne, List.length_append]
      omega
    rw [if_pos hpos]
    simp

theorem stringsJoin_data_head (s : String) (segs : List String) (sep : String) :
    ∃ tl, (stringsJoin (s :: segs) sep).data = s.data ++ tl := by
  cases segs with
  | nil => exact ⟨[], by simp [stringsJoin]⟩
  | cons t segs => exact ⟨_, stringsJoin_cons_cons_data s t segs sep⟩

theorem filepathJoin_of_plain (s : String) (segs : List String)
    (h : ∀ x ∈ s :: segs, PlainName x) :
    filepathJoin (s :: segs) = stringsJoin (s :: segs) "/" := by
  have hs := h s (by simp)
  have hlen := stringsJoin_length s segs h
  have hclean := cleanLoop_plain_segments segs s [] _ h hlen
  obtain ⟨tl, htl⟩ := stringsJoin_data_head s segs "/"
  have hse : s ≠ "" := by
    intro e
    exact hs.1 (by rw [e])
  have hne : (stringsJoin (s :: segs) "/").data ≠ [] := by
    intro e
    rw [e] at hlen
    simp at hlen
  have hroot : ¬ (stringsJoin (s :: segs) "/").data.head? = some '/' := by
    rw [htl]
    cases hd : s.data with
    | nil => exact absurd hd hs.1
    | cons c l =>
      have : c ≠ '/' := fun e => hs.2.1 (by rw [hd]; simp [e])
      simpa using this
  simp only [List.length_nil, bne_self_eq_false, Bool.false_eq_true, if_false,
    List.nil_append] at hclean
  simp only [filepathJoin, if_pos hse, filepathClean, if_neg hne, if_neg hroot, hclean]

theorem objectFilePath_of_plain (cfg : Config) (o : Object)
    (hdir : PlainName cfg.Directory) (hhost : PlainName cfg.DbAddress)
    (hdb : PlainName cfg.DbDatabase) (hschema : PlainName o.SchemaName)
    (hlabel : PlainName o.ObjectTypeDesc) (hfile : PlainName (objectFileName o)) :
    objectFilePath cfg o =
      cfg.Directory ++ "/" ++ cfg.DbAddress ++ "/" ++ cfg.DbDatabase ++ "/" ++
        o.SchemaName ++ "/" ++ o.ObjectTypeDesc ++ "/" ++ objectFileName o := by
  unfold objectFilePath
  rw [filepathJoin_of_plain]
  · simp [stringsJoin, String.append_assoc]
  · intro x hx
    simp only [List.mem_cons, List.mem_singleton, List.not_mem_nil, or_false] at hx
    rcases hx with rfl | rfl | rfl | rfl | rfl | rfl <;> assumption

/-- C5. For every directory, host, database and descriptor, the one file
`main` writes for the descriptor goes to the join of the directory, the host,
the database, the schema name, the kind label and the file name
`schema_name.kind_id.sql` (identifier in decimal, kind as stored); and when
these six segments are plain names this path is the six of them with a `/`
between neighbours. -/
theorem object_file_path_layout (cfg : Config) (o : Object) :
    filesWritten (writeObjects cfg [o]) = [(objectFilePath cfg o, o.ObjectDefinition)] ∧
    objectFilePath cfg o =
      filepathJoin [cfg.Directory, cfg.DbAddress, cfg.DbDatabase, o.SchemaName,
        o.ObjectTypeDesc,
        o.SchemaName ++ "_" ++ o.ObjectName ++ "." ++ o.ObjectType ++ "_" ++
          fmtInt o.ObjectId ++ ".sql"] ∧
    (PlainName cfg.Directory → PlainName cfg.DbAddress → PlainName cfg.DbDatabase →
      PlainName o.SchemaName → PlainName o.ObjectTypeDesc → PlainName (objectFileName o) →
      objectFilePath cfg o =
        cfg.Directory ++ "/" ++ cfg.DbAddress ++ "/" ++ cfg.DbDatabase ++ "/" ++
          o.SchemaName ++ "/" ++ o.ObjectTypeDesc ++ "/" ++
          o.SchemaName ++ "_" ++ o.ObjectName ++ "." ++ o.ObjectType ++ "_" ++
            fmtInt o.ObjectId ++ ".sql") := by
  refine ⟨rfl, rfl, ?_⟩
  intro hdir hhost hdb hschema hlabel hfile
  rw [objectFilePath_of_plain cfg o hdir hhost hdb hschema hlabel hfile]
  simp [objectFileName, String.append_assoc]

/-- C5 at the example scenario: the table `Customer` of schema `dbo`, kind
`U`, identifier 101, kind label `USER_TABLE`, under the directory `out`; and
the same descriptor under directories that are paths, where the join is
cleaned. -/
theorem object_file_path_layout_witness :
    filesWritten (writeObjects cfg1 [customer]) =
      [("out/db1/Sales/dbo/USER_TABLE/dbo_Customer.U_101.sql", customer.ObjectDefinition)] ∧
    objectFilePath cfg1 customer =
      filepathJoin ["out", "db1", "Sales", "dbo", "USER_TABLE", "dbo_Customer.U_101.sql"] ∧
    objectFilePath cfg1 customer = "out/db1/Sales/dbo/USER_TABLE/dbo_Customer.U_101.sql" ∧
    objectFilePath { cfg1 with Directory := "/tmp/out" } customer =
      "/tmp/out/db1/Sales/dbo/USER_TABLE/dbo_Customer.U_101.sql" ∧
    objectFilePath { cfg1 with Directory := "./exports//" } customer =
      "exports/db1/Sales/dbo/USER_TABLE/dbo_Customer.U_101.sql" ∧
    objectFilePath { cfg1 with Directory := "/srv/tmp/../out" } customer =
      "/srv/out/db1/Sales/dbo/USER_TABLE/dbo_Customer.U_101.sql" :=
  ⟨(object_file_path_layout cfg1 customer).1,
    (object_file_path_layout cfg1 customer).2.1,
    (object_file_path_layout cfg1 customer).2.2
      (by decide) (by decide) (by decide) (by decide) (by decide) (by decide),
    by decide, by decide, by decide⟩

/-! ## The last element of a cleaned path -/

theorem endsSlash_tail (x : Char) (m : List Char) (h : EndsSlash (x :: m)) : EndsSlash m := by
  rcases h with h | ⟨m0, h⟩
  · exact absurd h (by simp)
  · cases m0 with
    | nil =>
      simp only [List.nil_append, List.cons.injEq] at h
      exact Or.inl h.2
    | cons y m0 =>
      simp only [List.cons_append, List.cons.injEq] at h
      exact Or.inr ⟨m0, h.2⟩

theorem endsSlash_singleton (x : Char) (h : EndsSlash [x]) : x = '/' := by
  rcases h with h | ⟨m0, h⟩
  · exact absurd h (by simp)
  · cases m0 with
    | nil => simpa using h
    | cons y m0 =>
      simp only [List.cons_append, List.cons.injEq] at h
      exact absurd h.2 (by simp)

theorem dropWhile_endsSlash (m c : List Char) (hm : EndsSlash m) (hne : m ≠ []) :
    (m ++ c).dropWhile (fun x => x != '/') = m.dropWhile (fun x => x != '/') ++ c ∧
    EndsSlash (m.dropWhile (fun x => x != '/')) ∧
    (m.dropWhile (fun x => x != '/')).length ≤ m.length := by
  induction m with
  | nil => exact absurd rfl hne
  | cons x m ih =>
    by_cases hx : x = '/'
    · subst hx
      simp [List.dropWhile, hm]
    · have hb : (x != '/') = true := by simp [hx]
      have hm' : m ≠ [] := by
        intro e
        subst e
        exact hx (endsSlash_singleton x hm)
      obtain ⟨h1, h2, h3⟩ := ih (endsSlash_tail x m hm) hm'
      simp only [List.cons_append, List.dropWhile, hb, List.length_cons]
      exact ⟨h1, h2, by omega⟩

theorem cleanLoop_nil (rooted : Bool) (fuel : Nat) (out : List Char) (dotdot : Nat) :
    cleanLoop rooted fuel [] out dotdot = out := by
  cases fuel <;> simp [cleanLoop]

theorem cleanLoop_keeps_last_segment (rooted : Bool) (c : String) (hc : PlainName c)
    (fuel : Nat) :
    ∀ (m out : List Char) (dotdot : Nat), (m ++ c.data).length ≤ fuel → EndsSlash m →
      ∃ q, cleanLoop rooted fuel (m ++ c.data) out dotdot = q ++ c.data := by
  induction fuel with
  | zero =>
    intro m out dotdot hlen _
    have : 0 < c.data.length := List.length_pos.mpr hc.1
    simp only [List.length_append] at hlen
    omega
  | succ fuel ih =>
    intro m out dotdot hlen hm
    cases m with
    | nil =>
      have := cleanLoop_segment_step rooted fuel c [] out dotdot hc (Or.inl rfl)
      simp only [List.append_nil] at this
      rw [List.nil_append, this, cleanLoop_nil]
      exact ⟨_, rfl⟩
    | cons x m =>
      have hm' := endsSlash_tail x m hm
      simp only [List.cons_append, List.length_cons, List.length_append] at hlen
      by_cases hx : x = '/'
      · rw [List.cons_append, cleanLoop, if_pos hx]
        exact ih m _ _ (by simp only [List.length_append]; omega) hm'
      · cases m with
        | nil => exact absurd (endsSlash_singleton x hm) hx
        | cons y m =>
          have hm'' := endsSlash_tail y m hm'
          simp only [List.length_cons] at hlen
          obtain ⟨hd1, hd2, hd3⟩ := dropWhile_endsSlash (y :: m) c.data hm' (by simp)
          have hb : (x != '/') = true := by simp [hx]
          have hdrop : (x :: (y :: m ++ c.data)).dropWhile (fun x => x != '/') =
              (y :: m).dropWhile (fun x => x != '/') ++ c.data := by
            rw [← hd1]
            simp only [List.dropWhile, hb]
          have hl1 : (y :: m ++ c.data).length ≤ fuel := by
            simp only [List.cons_append, List.length_cons, List.length_append]; omega
          have hl2 : (m ++ c.data).length ≤ fuel := by
            simp only [List.length_append]; omega
          have hl3 : ((y :: m).dropWhile (fun x => x != '/') ++ c.data).length ≤ fuel := by
            simp only [List.length_append, List.length_cons] at hd3 ⊢; omega
          have htail : (y :: m ++ c.data).tail = m ++ c.data := rfl
          rw [List.cons_append, cleanLoop, if_neg hx]
          split_ifs
          all_goals first
            | exact ih (y :: m) _ _ hl1 hm'
            | (rw [htail]; exact ih m _ _ hl2 hm'')
            | (rw [hdrop]; exact ih _ _ _ hl3 hd2)

theorem filepathClean_keeps_last_segment (m : List Char) (c : String) (hm : EndsSlash m)
    (hc : PlainName c) : ∃ q, (filepathClean ⟨m ++ c.data⟩).data = q ++ c.data := by
  have hcne : c.data ≠ [] := hc.1
  have hne : m ++ c.data ≠ [] := by simp [hcne]
  unfold filepathClean
  simp only [if_neg hne]
  by_cases hroot : (m ++ c.data).head? = some '/'
  · simp only [hroot, if_true]
    cases m with
    | nil =>
      exfalso
      cases hd : c.data with
      | nil => exact hcne hd
      | cons x l =>
        rw [hd] at hroot
        simp only [List.nil_append, List.head?_cons, Option.some.injEq] at hroot
        exact hc.2.1 (by rw [hd, hroot]; simp)
    | cons x m =>
      have htail : (x :: m ++ c.data).tail = m ++ c.data := rfl
      rw [htail]
      obtain ⟨q, hq⟩ := cleanLoop_keeps_last_segment true c hc (x :: m ++ c.data).length m ['/'] 1
        (by simp) (endsSlash_tail x m hm)
      rw [hq]
      have : q ++ c.data ≠ [] := by simp [hcne]
      rw [if_neg this]
      exact ⟨q, rfl⟩
  · simp only [hroot, if_false]
    obtain ⟨q, hq⟩ := cleanLoop_keeps_last_segment false c hc (m ++ c.data).length m [] 0
      (le_refl _) hm
    rw [hq]
    have : q ++ c.data ≠ [] := by simp [hcne]
    rw [if_neg this]
    exact ⟨q, rfl⟩

theorem split_at_last_slash (l : List Char) :
    ∃ m x, l = m ++ x ∧ EndsSlash m ∧ '/' ∉ x := by
  induction l using List.reverseRecOn with
  | nil => exact ⟨[], [], rfl, Or.inl rfl, by simp⟩
  | append_singleton l a ih =>
    by_cases ha : a = '/'
    · exact ⟨l ++ [a], [], by simp, Or.inr ⟨l, by rw [ha]⟩, by simp⟩
    · obtain ⟨m, x, h1, h2, h3⟩ := ih
      refine ⟨m, x ++ [a], by rw [h1]; simp, h2, ?_⟩
      simp only [List.mem_append, List.mem_singleton, not_or]
      exact ⟨h3, fun e => ha e.symm⟩

theorem filepathJoin_ends_with_last (elems : List String) (f : String) (hf : f.data ≠ []) :
    ∃ pre, filepathJoin (elems ++ [f]) = filepathClean ⟨pre ++ f.data⟩ := by
  have hfe : f ≠ "" := by
    intro e
    exact hf (by rw [e])
  have hjoin : ∀ (es : List String), ∃ pre, (stringsJoin (es ++ [f]) "/").data = pre ++ f.data := by
    intro es
    induction es with
    | nil => exact ⟨[], by simp [stringsJoin]⟩
    | cons e es ih =>
      obtain ⟨pre, hpre⟩ := ih
      cases hes : es ++ [f] with
      | nil => simp at hes
      | cons b rest =>
        rw [List.cons_append, hes, stringsJoin_cons_cons_data, ← hes, hpre]
        exact ⟨e.data ++ (("/" : String).data ++ pre), by simp⟩
  induction elems with
  | nil =>
    refine ⟨[], ?_⟩
    simp only [List.nil_append, filepathJoin, if_pos hfe, stringsJoin]
  | cons e es ih =>
    by_cases he : e = ""
    · obtain ⟨pre, hpre⟩ := ih
      refine ⟨pre, ?_⟩
      rw [List.cons_append, filepathJoin]
      simp only [he, ne_eq, not_true_eq_false, if_false]
      exact hpre
    · obtain ⟨pre, hpre⟩ := hjoin (e :: es)
      refine ⟨pre, ?_⟩
      rw [List.cons_append, filepathJoin, if_pos he, ← List.cons_append]
      congr 1
      exact String.ext hpre

/-! ## File names -/

theorem digitChar_mem (n : Nat) (h : n < 10) :
    Nat.digitChar n ∈ ['0', '1', '2', '3', '4', '5', '6', '7', '8', '9'] := by
  interval_cases n <;> decide

theorem digitChar_value (n : Nat) (h : n < 10) : (Nat.digitChar n).toNat - 48 = n := by
  interval_cases n <;> decide

theorem decimalDigits_mem (fuel n : Nat) :
    ∀ c ∈ decimalDigits fuel n, c ∈ ['0', '1', '2', '3', '4', '5', '6', '7', '8', '9'] := by
  induction fuel generalizing n with
  | zero => intro c hc; simp [decimalDigits] at hc
  | succ fuel ih =>
    intro c hc
    unfold decimalDigits at hc
    by_cases h : n < 10
    · rw [if_pos h, List.mem_singleton] at hc
      rw [hc]
      exact digitChar_mem n h
    · rw [if_neg h, List.mem_append, List.mem_singleton] at hc
      rcases hc with hc | hc
      · exact ih _ c hc
      · rw [hc]
        exact digitChar_mem _ (Nat.mod_lt _ (by decide))

theorem digitsValue_decimalDigits (fuel n : Nat) (h : n < fuel) :
    digitsValue (decimalDigits fuel n) = n := by
  induction fuel generalizing n with
  | zero => omega
  | succ fuel ih =>
    unfold decimalDigits
    by_cases h10 : n < 10
    · rw [if_pos h10]
      simp [digitsValue, digitChar_value n h10]
    · rw [if_neg h10]
      have hlt : n / 10 < fuel := by omega
      have := ih (n / 10) hlt
      unfold digitsValue at this ⊢
      rw [List.foldl_append, this]
      simp only [List.foldl_cons, List.foldl_nil]
      rw [digitChar_value _ (Nat.mod_lt _ (by decide))]
      omega

theorem fmtInt_injective (a b : Int) (h : fmtInt a = fmtInt b) : a = b := by
  have hd : (fmtInt a).data = (fmtInt b).data := by rw [h]
  cases a with
  | ofNat m =>
    cases b with
    | ofNat n =>
      simp only [fmtInt] at hd
      have := congrArg digitsValue hd
      rw [digitsValue_decimalDigits _ _ (by omega), digitsValue_decimalDigits _ _ (by omega)]
        at this
      rw [this]
    | negSucc n =>
      simp only [fmtInt] at hd
      have hm := decimalDigits_mem (m + 1) m '-' (by rw [hd]; simp)
      exact absurd hm (by decide)
  | negSucc m =>
    cases b with
    | ofNat n =>
      simp only [fmtInt] at hd
      have hm := decimalDigits_mem (n + 1) n '-' (by rw [← hd]; simp)
      exact absurd hm (by decide)
    | negSucc n =>
      simp only [fmtInt, List.cons.injEq, true_and] at hd
      have := congrArg digitsValue hd
      rw [digitsValue_decimalDigits _ _ (by omega), digitsValue_decimalDigits _ _ (by omega)]
        at this
      have e : m = n := by omega
      rw [e]

theorem fmtInt_no_underscore (a : Int) : '_' ∉ (fmtInt a).data := by
  intro h
  cases a with
  | ofNat m =>
    simp only [fmtInt] at h
    exact absurd (decimalDigits_mem _ _ _ h) (by decide)
  | negSucc m =>
    simp only [fmtInt, List.mem_cons] at h
    rcases h with h | h
    · exact absurd h (by decide)
    · exact absurd (decimalDigits_mem _ _ _ h) (by decide)

theorem append_cons_last_inj (c : Char) :
    ∀ (a b x y : List Char), c ∉ x → c ∉ y → a ++ c :: x = b ++ c :: y → a = b ∧ x = y := by
  intro a
  induction a with
  | nil =>
    intro b x y hx hy h
    cases b with
    | nil => simpa using h
    | cons d b =>
      simp only [List.nil_append, List.cons_append, List.cons.injEq] at h
      exact absurd (by rw [h.2]; simp) hx
  | cons e a ih =>
    intro b x y hx hy h
    cases b with
    | nil =>
      simp only [List.nil_append, List.cons_append, List.cons.injEq] at h
      exact absurd (by rw [← h.2]; simp) hy
    | cons d b =>
      simp only [List.cons_append, List.cons.injEq] at h
      obtain ⟨h1, h2⟩ := ih b x y hx hy h.2
      exact ⟨by rw [h.1, h1], h2⟩

theorem objectFileName_data (o : Object) :
    (objectFileName o).data =
      (o.SchemaName.data ++ '_' :: o.ObjectName.data ++ '.' :: o.ObjectType.data) ++
        '_' :: ((fmtInt o.ObjectId).data ++ ['.', 's', 'q', 'l']) := by
  simp [objectFileName, String.data_append]

theorem objectFilePath_ends_with (cfg : Config) (o : Object) (g t : List Char)
    (hF : (objectFileName o).data = g ++ (t ++ ['.', 's', 'q', 'l'])) (ht : '/' ∉ t) :
    ∃ q, (objectFilePath cfg o).data = q ++ (t ++ ['.', 's', 'q', 'l']) := by
  have hne : (objectFileName o).data ≠ [] := by
    rw [hF]; simp
  obtain ⟨pre, hpre⟩ := filepathJoin_ends_with_last
    [cfg.Directory, cfg.DbAddress, cfg.DbDatabase, o.SchemaName, o.ObjectTypeDesc]
    (objectFileName o) hne
  obtain ⟨m, x, hmx, hm, hx⟩ := split_at_last_slash (pre ++ g)
  have hc : PlainName ⟨x ++ (t ++ ['.', 's', 'q', 'l'])⟩ := by
    refine ⟨by simp, ?_, ?_, ?_⟩
    · simp only [List.mem_append, not_or]
      exact ⟨hx, ht, by decide⟩
    · intro e
      have := congrArg List.length e
      simp only [List.length_append, List.length_cons, List.length_nil] at this
      omega
    · intro e
      have := congrArg List.length e
      simp only [List.length_append, List.length_cons, List.length_nil] at this
      omega
  obtain ⟨q, hq⟩ := filepathClean_keeps_last_segment m _ hm hc
  refine ⟨q ++ x, ?_⟩
  have e1 : objectFilePath cfg o =
      filepathClean ⟨m ++ (x ++ (t ++ ['.', 's', 'q', 'l']))⟩ := by
    unfold objectFilePath
    have : [cfg.Directory, cfg.DbAddress, cfg.DbDatabase, o.SchemaName, o.ObjectTypeDesc,
        objectFileName o] =
        [cfg.Directory, cfg.DbAddress, cfg.DbDatabase, o.SchemaName, o.ObjectTypeDesc] ++
          [objectFileName o] := rfl
    rw [this, hpre, hF, ← List.append_assoc pre g, hmx, List.append_assoc]
  rw [e1, hq]
  simp

theorem fmtInt_no_slash (a : Int) : '/' ∉ (fmtInt a).data := by
  intro h
  cases a with
  | ofNat m =>
    simp only [fmtInt] at h
    exact absurd (decimalDigits_mem _ _ _ h) (by decide)
  | negSucc m =>
    simp only [fmtInt, List.mem_cons] at h
    rcases h with h | h
    · exact absurd h (by decide)
    · exact absurd (decimalDigits_mem _ _ _ h) (by decide)

theorem objectFileName_ne (o1 o2 : Object)
    (h : o1.ObjectId ≠ o2.ObjectId ∨
      (o1.ObjectType ≠ o2.ObjectType ∧ o1.ObjectType.data.length = o2.ObjectType.data.length)) :
    objectFileName o1 ≠ objectFileName o2 := by
  intro e
  have hd : (objectFileName o1).data = (objectFileName o2).data := by rw [e]
  rw [objectFileName_data, objectFileName_data] at hd
  have hx : ∀ i : Int, '_' ∉ (fmtInt i).data ++ ['.', 's', 'q', 'l'] := by
    intro i hi
    rw [List.mem_append] at hi
    rcases hi with hi | hi
    · exact fmtInt_no_underscore i hi
    · exact absurd hi (by decide)
  obtain ⟨h1, h2⟩ := append_cons_last_inj '_' _ _ _ _ (hx _) (hx _) hd
  rcases h with h | ⟨h, hw⟩
  · exact h (fmtInt_injective _ _ (String.ext (List.append_cancel_right h2)))
  · have h1' : (o1.SchemaName.data ++ '_' :: (o1.ObjectName.data ++ ['.'])) ++ o1.ObjectType.data =
        (o2.SchemaName.data ++ '_' :: (o2.ObjectName.data ++ ['.'])) ++ o2.ObjectType.data := by
      simpa using h1
    exact h (String.ext (List.append_inj' h1' hw).2)

theorem objectFilePath_ne (cfg : Config) (o1 o2 : Object)
    (h : o1.ObjectId ≠ o2.ObjectId ∨
      (o1.ObjectType ≠ o2.ObjectType ∧
        o1.ObjectType.data.length = o2.ObjectType.data.length ∧
        '/' ∉ o1.ObjectType.data ∧ '/' ∉ o2.ObjectType.data)) :
    objectFilePath cfg o1 ≠ objectFilePath cfg o2 := by
  intro e
  have hd : (objectFilePath cfg o1).data = (objectFilePath cfg o2).data := by rw [e]
  have hx : ∀ i : Int, '_' ∉ (fmtInt i).data ++ ['.', 's', 'q', 'l'] := by
    intro i hi
    rw [List.mem_append] at hi
    rcases hi with hi | hi
    · exact fmtInt_no_underscore i hi
    · exact absurd hi (by decide)
  rcases h with h | ⟨h, hw, hs1, hs2⟩
  · have key : ∀ o : Object, ∃ q, (objectFilePath cfg o).data =
        q ++ '_' :: ((fmtInt o.ObjectId).data ++ ['.', 's', 'q', 'l']) := by
      intro o
      obtain ⟨q, hq⟩ := objectFilePath_ends_with cfg o
        (o.SchemaName.data ++ '_' :: o.ObjectName.data ++ '.' :: o.ObjectType.data)
        ('_' :: (fmtInt o.ObjectId).data)
        (by rw [objectFileName_data]; simp)
        (by
          simp only [List.mem_cons, not_or]
          exact ⟨by decide, fmtInt_no_slash _⟩)
      exact ⟨q, by rw [hq]; simp⟩
    obtain ⟨q1, hq1⟩ := key o1
    obtain ⟨q2, hq2⟩ := key o2
    rw [hq1, hq2] at hd
    obtain ⟨_, h2⟩ := append_cons_last_inj '_' _ _ _ _ (hx _) (hx _) hd
    exact h (fmtInt_injective _ _ (String.ext (List.append_cancel_right h2)))
  · have key : ∀ o : Object, '/' ∉ o.ObjectType.data → ∃ q, (objectFilePath cfg o).data =
        (q ++ ['.'] ++ o.ObjectType.data) ++
          '_' :: ((fmtInt o.ObjectId).data ++ ['.', 's', 'q', 'l']) := by
      intro o hs
      obtain ⟨q, hq⟩ := objectFilePath_ends_with cfg o
        (o.SchemaName.data ++ '_' :: o.ObjectName.data)
        ('.' :: o.ObjectType.data ++ '_' :: (fmtInt o.ObjectId).data)
        (by rw [objectFileName_data]; simp)
        (by
          simp only [List.cons_append, List.mem_cons, List.mem_append, not_or]
          exact ⟨by decide, hs, by decide, fmtInt_no_slash _⟩)
      exact ⟨q, by rw [hq]; simp⟩
    obtain ⟨q1, hq1⟩ := key o1 hs1
    obtain ⟨q2, hq2⟩ := key o2 hs2
    rw [hq1, hq2] at hd
    obtain ⟨h1, _⟩ := append_cons_last_inj '_' _ _ _ _ (hx _) (hx _) hd
    exact h (String.ext (List.append_inj' h1 hw).2)

/-- C6. Two descriptors of one run that differ in identifier, or that differ in
kind (the kinds having one width, as the `char(2)` column of the catalog
gives them), get different file names `schema_name.kind_id.sql`, whatever
their schema names and object names, also when they share a name; and they
are written to different paths, for every directory, host, database, schema
and name, when they differ in identifier or their kinds hold no `/` (a
catalog type code is made of letters and blanks). -/
theorem file_names_never_collide (cfg : Config) (o1 o2 : Object)
    (h : o1.ObjectId ≠ o2.ObjectId ∨
      (o1.ObjectType ≠ o2.ObjectType ∧ o1.ObjectType.length = o2.ObjectType.length)) :
    objectFileName o1 ≠ objectFileName o2 ∧
    (o1.ObjectId ≠ o2.ObjectId ∨ ('/' ∉ o1.ObjectType.data ∧ '/' ∉ o2.ObjectType.data) →
      objectFilePath cfg o1 ≠ objectFilePath cfg o2) := by
  refine ⟨objectFileName_ne o1 o2 h, ?_⟩
  intro hp
  apply objectFilePath_ne cfg o1 o2
  rcases h with h | ⟨h, hw⟩
  · exact Or.inl h
  · rcases hp with hp | ⟨hs1, hs2⟩
    · exact Or.inl hp
    · exact Or.inr ⟨h, hw, hs1, hs2⟩

/-- C6 at a table and a view that share schema, name and identifier and differ
in kind only. -/
theorem file_names_never_collide_witness :
    (reportTable.ObjectId ≠ reportView.ObjectId ∨
      (reportTable.ObjectType ≠ reportView.ObjectType ∧
        reportTable.ObjectType.length = reportView.ObjectType.length)) ∧
    objectFileName reportTable = "dbo_Report.U _404.sql" ∧
    objectFileName reportView = "dbo_Report.V _404.sql" ∧
    objectFileName reportTable ≠ objectFileName reportView ∧
    objectFilePath cfg1 reportTable ≠ objectFilePath cfg1 reportView :=
  ⟨by decide, by decide, by decide,
    (file_names_never_collide cfg1 reportTable reportView (by decide)).1,
    (file_names_never_collide cfg1 reportTable reportView (by decide)).2
      (Or.inr ⟨by decide, by decide⟩)⟩

/-! ## The required directory -/

theorem main_without_directory (cfg : Config) (args : List String)
    (catalog : Except String (List Object)) (db : Database) (exec : Shell)
    (h : cfg.Directory = "") :
    main cfg args catalog db exec = (.error (.exit (-1)), [.stderr usage]) := by
  unfold main
  split
  · rw [if_pos h]
  · rfl

/-! ## The fuel of `cleanLoop` -/

theorem dropWhile_length_le (p : Char → Bool) (l : List Char) :
    (l.dropWhile p).length ≤ l.length := by
  induction l with
  | nil => simp
  | cons c l ih =>
    simp only [List.dropWhile]
    split
    · simp only [List.length_cons]; omega
    · simp

theorem cleanLoop_fuel (rooted : Bool) (f1 : Nat) :
    ∀ (f2 : Nat) (path out : List Char) (dotdot : Nat), path.length ≤ f1 → path.length ≤ f2 →
      cleanLoop rooted f1 path out dotdot = cleanLoop rooted f2 path out dotdot := by
  induction f1 with
  | zero =>
    intro f2 path out dotdot h1 _
    have : path = [] := List.length_eq_zero.mp (by omega)
    subst this
    cases f2 <;> simp [cleanLoop]
  | succ f1 ih =>
    intro f2 path out dotdot h1 h2
    cases path with
    | nil => cases f2 <;> simp [cleanLoop]
    | cons c rest =>
      obtain ⟨g, rfl⟩ : ∃ g, f2 = g + 1 := ⟨f2 - 1, by simp at h2; omega⟩
      simp only [List.length_cons] at h1 h2
      have ht : rest.tail.length ≤ rest.length := by simp
      have hd : ((c :: rest).dropWhile (fun x => x != '/')).length ≤ rest.length ∨ c = '/' := by
        by_cases hc : c = '/'
        · exact Or.inr hc
        · left
          have hb : (c != '/') = true := by simp [hc]
          simp only [List.dropWhile, hb]
          exact dropWhile_length_le _ _
      unfold cleanLoop
      split_ifs with hc
      all_goals first
        | exact ih _ _ _ _ (by omega) (by omega)
        | (rcases hd with hd | hd
           · exact ih _ _ _ _ (by omega) (by omega)
           · exact absurd hd hc)

end SqlObjectExport
